import Mathlib

/-!
Verification of the ART (adaptive radix tree) implementation in `src/art.hpp`
(namespace `arttree`).  The C++ code is shallowly embedded: keys, values and
node payloads become Lean lists, the pointer-mutating `recursive_insert` and
the iterative `search` become pure functions that return the updated /
inspected tree.  Machine bytes are modelled as `Nat` (every byte the C++ can
ever see lies in `[0, 256)`; no operation below depends on an upper bound).

Modelling conventions, used consistently below:
* `std::string_view` becomes `List Nat` (one `Nat` per byte).
* A `Node *` that may be null becomes `Option Node`.
* Reading a byte one past the end of a view (which `search` guards with
  `depth < key.size()` but `recursive_insert` does not, an out-of-bounds read
  in C++) is modelled as reading `0`, the byte the code itself uses as its
  "key exhausted" terminal marker (`char{0}` in `ArtTree::search`).
* The fixed 16-byte `prefix` array of `Node` is modelled as a `List Nat` of
  length `MAX_PREFIX_LEN = 16`; array writes at index `i < 16` are `List.set`,
  and the C++ stores `0` in every cell a constructor did not touch
  (value-initialisation by `new Node{}`).
-/

namespace ArtModel

/-- `ArtTreeDefs::MAX_PREFIX_LEN` from `src/art.hpp`. -/
def MAX_PREFIX_LEN : Nat := 16

/-- The four inner-node layouts of `enum class NodeType` (`Node4`, `Node16`,
`Node48`, `Node256`).  The `Leaf` member of the C++ enum is the separate
`Node.leaf` constructor below, and `Invalid` tags envelopes that the code
never builds (every node reachable from `ArtTree` operations carries one of
the five valid tags), so it has no model counterpart. -/
inductive NT where
  | node4 : NT
  | node16 : NT
  | node48 : NT
  | node256 : NT
deriving DecidableEq, Repr

/-- The `Node` envelope of `src/art.hpp`: a tag, the compressed-path array
`prefix` (16 bytes), `prefix_len`, and the payload.  A leaf payload
(`NodeLeaf`) is its `(key, value)` pair.  An inner payload is modelled by
three parallel lists whose meaning depends on the tag:

* `node4`:   `keys` = the 4-byte `key` array, `bits` = the four used bits of
  the auxiliary bitmap (stored in `key[4]` in C++), `children` = 4 slots.
* `node16`:  `keys` = the 16-byte `key` array, `bits` unused (`[]`),
  `children` = 16 slots.
* `node48`:  `keys` = the 256-entry `child_index` table (255 = `0xFF` means
  empty), `bits` unused, `children` = 48 slots.
* `node256`: `keys` and `bits` unused, `children` = 256 slots. -/
inductive Node where
  | leaf : (key : List Nat) → (val : List Nat) → Node
  | inner : (ty : NT) → (pfx : List Nat) → (plen : Nat) → (keys : List Nat) →
      (bits : List Bool) → (children : List (Option Node)) → Node

/-- A 16-byte zero-initialised `prefix` array (`new Node{}` zero-fills it). -/
def zeros16 : List Nat := List.replicate MAX_PREFIX_LEN 0

/-- Reading `key[i]` from a byte sequence; out-of-range reads are modelled as
the terminal byte `0` (see the header comment). -/
def byteAt (k : List Nat) (i : Nat) : Nat := k.getD i 0

/-- `Node::make_node(NodeType::Node4, "", "")`: a fresh empty `Node4`
envelope (zero prefix, `prefix_len = 0`, zeroed key bytes, cleared bitmap,
null children). -/
def emptyNode4 : Node :=
  Node.inner NT.node4 zeros16 0 (List.replicate 4 0) (List.replicate 4 false)
    (List.replicate 4 none)

/-- A fresh `Node16` payload as built by `Node16()` inside `Node::grow`. -/
def emptyNode16 : Node → Node
  | Node.leaf k v => Node.leaf k v
  | Node.inner _ pfx plen _ _ _ =>
      Node.inner NT.node16 pfx plen (List.replicate 16 0) []
        (List.replicate 16 none)

/-- A fresh `Node48` payload (`child_index` all `0xFF`) keeping the envelope
prefix, as built inside `Node::grow`. -/
def emptyNode48 : Node → Node
  | Node.leaf k v => Node.leaf k v
  | Node.inner _ pfx plen _ _ _ =>
      Node.inner NT.node48 pfx plen (List.replicate 256 255) []
        (List.replicate 48 none)

/-- A fresh `Node256` payload keeping the envelope prefix, as built inside
`Node::grow`. -/
def emptyNode256 : Node → Node
  | Node.leaf k v => Node.leaf k v
  | Node.inner _ pfx plen _ _ _ =>
      Node.inner NT.node256 pfx plen [] [] (List.replicate 256 none)

/-- First slot holding a null child (the slot-allocation scan shared by
`Node4::add_child`, `Node16::add_child` and `Node48::add_child`). -/
def firstNone : List (Option Node) → Option Nat
  | [] => none
  | none :: _ => some 0
  | some _ :: rest => (firstNone rest).map (· + 1)

/-- `Node4::find_child(ch, is_leaf)` / `Node16::find_child(ch)` slot lookup:
scan the fixed-size key array for the first byte equal to `ch`.  Note the C++
scans every slot, occupied or not, so a residual `0` key byte of an empty
slot can match.  When `isLeaf` is set (`Node4` only) a slot matches only if
its bitmap bit is also set. -/
def scanKeys (keys : List Nat) (bits : List Bool) (ch : Nat) (isLeaf : Bool) :
    Option Nat :=
  if isLeaf then (keys.zip bits).findIdx? (fun kb => kb.1 == ch && kb.2)
  else keys.findIdx? (fun k => k == ch)

/-- `Node::find_child(ch, is_leaf)`: dispatch on the tag and return the index
of the matched child slot (the C++ returns `&children[i]`; the model returns
`i` so callers can read or replace the slot).  The `ch % 256` below models
the `unsigned char` parameter type (and the explicit `static_cast<uint8_t>`
in the `Node48`/`Node256` layouts); callers only ever pass bytes, for which
it is the identity.  `Node16`, `Node48` and `Node256` ignore the `is_leaf`
flag, exactly as in the source.  On a leaf the C++ asserts; the model returns
`none` (the `assert`-then-`return nullptr` fall-through of the NDEBUG
build). -/
def Node.findChild : Node → Nat → Bool → Option Nat
  | Node.leaf _ _, _, _ => none
  | Node.inner NT.node4 _ _ keys bits _, ch, isLeaf =>
      scanKeys keys bits (ch % 256) isLeaf
  | Node.inner NT.node16 _ _ keys _ _, ch, _ => scanKeys keys [] (ch % 256) false
  | Node.inner NT.node48 _ _ keys _ _, ch, _ =>
      let idx := keys.getD (ch % 256) 255
      if idx = 255 then none else some idx
  | Node.inner NT.node256 _ _ _ _ children, ch, _ =>
      if (children.getD (ch % 256) none).isSome then some (ch % 256) else none

/-- `Node::add_child(ch, n, is_leaf)`: place `child` in the first free slot
(`Node4`/`Node16`/`Node48`) or at index `ch` (`Node256`), updating the key
byte / index table / bitmap exactly as the per-layout `add_child` does.
Returns the updated node and the C++ `bool` result.  `Node16::add_child` is
reached from `Node::grow` with a possibly-null child pointer, hence
`child : Option Node`. -/
def Node.addChild : Node → Nat → Option Node → Bool → (Node × Bool)
  | Node.leaf k v, _, _, _ => (Node.leaf k v, false)
  | Node.inner NT.node4 pfx plen keys bits children, ch, child, isLeaf =>
      match firstNone children with
      | some i =>
          (Node.inner NT.node4 pfx plen (keys.set i (ch % 256))
            (if isLeaf then bits.set i true else bits)
            (children.set i child), true)
      | none => (Node.inner NT.node4 pfx plen keys bits children, false)
  | Node.inner NT.node16 pfx plen keys bits children, ch, child, _ =>
      match firstNone children with
      | some i =>
          (Node.inner NT.node16 pfx plen (keys.set i (ch % 256)) bits
            (children.set i child), true)
      | none => (Node.inner NT.node16 pfx plen keys bits children, false)
  | Node.inner NT.node48 pfx plen keys bits children, ch, child, _ =>
      match firstNone children with
      | some i =>
          (Node.inner NT.node48 pfx plen (keys.set (ch % 256) i) bits
            (children.set i child), true)
      | none => (Node.inner NT.node48 pfx plen keys bits children, false)
  | Node.inner NT.node256 pfx plen keys bits children, ch, child, _ =>
      if (children.getD (ch % 256) none).isNone then
        (Node.inner NT.node256 pfx plen keys bits (children.set (ch % 256) child),
          true)
      else (Node.inner NT.node256 pfx plen keys bits children, false)

/-- `Node::is_full()`: the source returns `false` for every inner layout and
`true` only for a leaf (the `assert(false)` default is unreachable on nodes
the tree builds). -/
def Node.isFull : Node → Bool
  | Node.leaf _ _ => true
  | Node.inner _ _ _ _ _ _ => false

/-- `Node::grow()`: promote the payload to the next layout, re-adding the
children exactly as the three conversion loops do.  Note two faithfully kept
quirks of the source: the `Node4 → Node16` loop copies all four slots without
a null check, and the `Node48 → Node256` loop (marked `TODO: fix bug` in the
source) iterates the 48 compact slots and installs child `i` at byte
position `i` instead of consulting the 256-entry `child_index` table.  `grow`
on a leaf or a `Node256` asserts in C++; the model returns the node
unchanged (those calls never occur in the tree code). -/
def Node.grow : Node → Node
  | Node.leaf k v => Node.leaf k v
  | Node.inner NT.node4 pfx plen keys bits children =>
      (List.range 4).foldl
        (fun acc i => (Node.addChild acc (keys.getD i 0) (children.getD i none) false).1)
        (emptyNode16 (Node.inner NT.node4 pfx plen keys bits children))
  | Node.inner NT.node16 pfx plen keys bits children =>
      (List.range 16).foldl
        (fun acc i =>
          if (children.getD i none).isSome then
            (Node.addChild acc (keys.getD i 0) (children.getD i none) false).1
          else acc)
        (emptyNode48 (Node.inner NT.node16 pfx plen keys bits children))
  | Node.inner NT.node48 pfx plen keys bits children =>
      (List.range 48).foldl
        (fun acc i =>
          if (children.getD i none).isSome then
            (Node.addChild acc i (children.getD i none) false).1
          else acc)
        (emptyNode256 (Node.inner NT.node48 pfx plen keys bits children))
  | Node.inner NT.node256 pfx plen keys bits children =>
      Node.inner NT.node256 pfx plen keys bits children

/-- The loop of `Node::check_prefix(key, depth)` (the method at
`src/art.hpp:438`): starting at `i = depth`, advance while
`i < prefix_len && i < key.size() && key[i] == prefix[i]`, and return the
final `i`.  The loop runs at most `plen - i` more steps, so recursion on
that bound is exact (when it reaches zero the guard `i < plen` is already
false). -/
def checkPfxFrom (pfx : List Nat) (plen : Nat) (key : List Nat) : Nat → Nat → Nat
  | 0, i => i
  | fuel + 1, i =>
      if i < plen ∧ i < key.length ∧ byteAt key i = byteAt pfx i then
        checkPfxFrom pfx plen key fuel (i + 1)
      else i

/-- `Node::check_prefix(key, depth)` on an envelope with prefix array `pfx`
and `prefix_len = plen`: the loop above started at `depth`, minus `depth`. -/
def checkPfx (pfx : List Nat) (plen : Nat) (key : List Nat) (depth : Nat) : Nat :=
  checkPfxFrom pfx plen key plen depth - depth

/-- The unguarded common-prefix loop of the leaf-split case of
`ArtTree::recursive_insert` (`for (; key[i] == key2[i]; i++)`).  The C++ loop
has no bound at all: once `i` passes the end of both views it compares bytes
outside either string (undefined behaviour).  The model reads `0` past the
end of a view and stops once both views are exhausted, the point at which the
C++ behaviour stops being defined. -/
def lcpFrom (key key2 : List Nat) : Nat → Nat → Nat
  | 0, i => i
  | fuel + 1, i =>
      if (i < key.length ∨ i < key2.length) ∧ byteAt key i = byteAt key2 i then
        lcpFrom key key2 fuel (i + 1)
      else i

/-- Entry point of the split loop at depth `d`: fuel `key.length +
key2.length` is exact, because the guard forces `i < max` of the lengths. -/
def lcpEnd (key key2 : List Nat) (d : Nat) : Nat :=
  lcpFrom key key2 (key.length + key2.length) d

/-- Size bound used for termination: reading any slot of a child list yields
something no bigger than the list. -/
theorem sizeOf_getD_le (l : List (Option Node)) (i : Nat) :
    sizeOf (l.getD i none) ≤ sizeOf l := by
  induction l generalizing i with
  | nil => simp [List.getD]
  | cons a t ih =>
      cases i with
      | zero => simp [List.getD]; omega
      | succ j =>
          have h := ih j
          simp [List.getD] at h ⊢
          omega

/-- A child slot of an inner envelope is smaller than the envelope. -/
theorem sizeOf_getD_lt_inner (ty : NT) (pfx : List Nat) (plen : Nat)
    (keys : List Nat) (bits : List Bool) (children : List (Option Node))
    (idx : Nat) :
    sizeOf (children.getD idx none) <
      sizeOf (Node.inner ty pfx plen keys bits children) := by
  have h := sizeOf_getD_le children idx
  simp only [Node.inner.sizeOf_spec]
  omega

/-- Same bound against the `Option`-wrapped envelope, stated in the exact
shape of the recursion measure goals. -/
theorem sizeOf_getD_lt_some_inner {ty : NT} {pfx : List Nat} {plen : Nat}
    {keys : List Nat} {bits : List Bool} {children : List (Option Node)}
    {idx : Nat} :
    sizeOf (children.getD idx none) <
      sizeOf (some (Node.inner ty pfx plen keys bits children) : Option Node) := by
  have h := sizeOf_getD_lt_inner ty pfx plen keys bits children idx
  simp [Node.inner.sizeOf_spec] at h ⊢
  omega

/-- One iteration of the `while (cur)` loop of `ArtTree::search`, from the
prefix comparison to the move to the child: returns `none` when the loop
exits on this iteration (prefix mismatch, or no child for the edge byte) and
`some (child, depth)` when the loop continues.  The edge byte is
`key[depth]`, or the terminal byte `0` once the key is exhausted, and the
`is_leaf` flag passed to `find_child` is `depth == key.size()`, exactly as at
`src/art.hpp:674`. -/
def searchStep (n : Node) (key : List Nat) (depth : Nat) :
    Option (Nat × Nat) :=
  match n with
  | Node.leaf _ _ => none
  | Node.inner ty pfx plen keys bits children =>
      let p := checkPfx pfx plen key depth
      if p ≠ plen then none
      else
        let d := depth + plen
        let ch := if d < key.length then byteAt key d else 0
        match (Node.inner ty pfx plen keys bits children).findChild ch
            (d == key.length) with
        | none => none
        | some idx => some (idx, d + 1)

/-- The child slot the search loop dereferences (`cur = *next`). -/
def Node.childAt : Node → Nat → Option Node
  | Node.leaf _ _, _ => none
  | Node.inner _ _ _ _ _ children, i => children.getD i none

/-- A continuing search step advances `depth` by `prefix_len + 1 ≥ 1`. -/
theorem searchStep_depth {n : Node} {key : List Nat} {depth : Nat}
    {idx : Nat} {d2 : Nat} (h : searchStep n key depth = some (idx, d2)) :
    depth + 1 ≤ d2 := by
  cases n with
  | leaf k v => simp [searchStep] at h
  | inner ty pfx plen keys bits children =>
      simp only [searchStep] at h
      split at h
      · exact absurd h (by simp)
      · split at h
        · exact absurd h (by simp)
        · simp only [Option.some.injEq, Prod.mk.injEq] at h
          omega

/-- The loop of `ArtTree::search` (`src/art.hpp:654`): at a null pointer
report a miss, at a leaf compare the full stored key with the probe, and at
an inner node perform one `searchStep` and move into the matched slot. -/
def searchLoop : Option Node → List Nat → Nat → Option (List Nat)
  | none, _, _ => none
  | some n, key, depth =>
      match n with
      | Node.leaf k v => if k = key then some v else none
      | Node.inner ty pfx plen keys bits children =>
          match searchStep (Node.inner ty pfx plen keys bits children)
              key depth with
          | none => none
          | some (idx, d2) => searchLoop (children.getD idx none) key d2
termination_by cur _ _ => sizeOf cur
decreasing_by
  apply sizeOf_getD_lt_some_inner

/-- `ArtTree::search(key, val)`: run the loop from the root at depth 0;
`some v` models `return true` with `val = v`, `none` models `return false`. -/
def search (root : Option Node) (key : List Nat) : Option (List Nat) :=
  searchLoop root key 0

/-- `ArtTree::recursive_insert(node_ref, key, leaf, depth)` (`src/art.hpp:691`).
The C++ mutates `*node_ref`; the model returns the subtree that `*node_ref`
refers to afterwards.  Every branch of the source is translated:

* `*node_ref == nullptr`: install the fresh leaf.
* Existing leaf with the same key: the source assigns the fresh leaf to the
  local variable `node` (not to `*node_ref`) and deletes the old leaf, so the
  tree still references the old leaf object — a use-after-free.  The model
  keeps the old leaf, which is what the dangling pointer still addresses.
* Existing leaf, different key: run the unguarded common-prefix loop from
  `depth`, build a `Node4` whose prefix is `key[depth..i)` (writes beyond the
  16-byte array would be out of bounds in C++ and are dropped here), then
  `add_child(key[i], leaf, true)` followed by `add_child(0, node, true)` —
  the pre-existing leaf always goes to edge byte `0`, whatever its own byte
  at position `i` is.
* Inner node, partial prefix match `p < prefix_len`: build a `Node4` with
  the first `p` prefix bytes, add the fresh leaf at edge `key[depth+p]` and
  the old node at edge `prefix[p]`, then shorten the old node's prefix: the
  source sets `prefix_len -= p` and moves `prefix_len` bytes starting from
  offset `p + 1` (reading one byte past the semantic prefix).
* Inner node, full match: advance depth, look up the child slot for
  `key[depth]` (an out-of-bounds read, modelled as byte `0`, when the key is
  exhausted — note `find_child` is called without the `is_leaf` flag here),
  and either recurse into the slot or `add_child(key[depth], leaf, true)`
  after the (never-firing, since `is_full` is `false` for every inner
  layout) growth check. -/
def recursiveInsert : Option Node → List Nat → Node → Nat → Option Node
  | none, _, lf, _ => some lf
  | some node, key, lf, depth =>
      match node with
      | Node.leaf k v =>
          if k = key then some (Node.leaf k v)
          else
            let i := lcpEnd key k depth
            let pfxArr := (List.range MAX_PREFIX_LEN).map
              (fun j => if j < i - depth then byteAt key (depth + j) else 0)
            let n0 := Node.inner NT.node4 pfxArr (i - depth)
              (List.replicate 4 0) (List.replicate 4 false)
              (List.replicate 4 none)
            let n1 := (n0.addChild (byteAt key i) (some lf) true).1
            some (n1.addChild 0 (some (Node.leaf k v)) true).1
      | Node.inner ty pfx plen keys bits children =>
          let p := checkPfx pfx plen key depth
          if p ≠ plen then
            let movedPfx := (List.range MAX_PREFIX_LEN).map
              (fun j => if j < plen - p then byteAt pfx (p + 1 + j)
                else byteAt pfx j)
            let oldNode := Node.inner ty movedPfx (plen - p) keys bits children
            let newPfx := (List.range MAX_PREFIX_LEN).map
              (fun j => if j < p then byteAt pfx j else 0)
            let n0 := Node.inner NT.node4 newPfx p (List.replicate 4 0)
              (List.replicate 4 false) (List.replicate 4 none)
            let n1 := (n0.addChild (byteAt key (depth + p)) (some lf) true).1
            some (n1.addChild (byteAt pfx p) (some oldNode) false).1
          else
            let d := depth + plen
            match (Node.inner ty pfx plen keys bits children).findChild
                (byteAt key d) false with
            | some idx =>
                some (Node.inner ty pfx plen keys bits
                  (children.set idx
                    (recursiveInsert (children.getD idx none) key lf (d + 1))))
            | none =>
                let node2 := if (Node.inner ty pfx plen keys bits
                    children).isFull then
                  (Node.inner ty pfx plen keys bits children).grow
                else Node.inner ty pfx plen keys bits children
                some (node2.addChild (byteAt key d) (some lf) true).1
termination_by cur _ _ _ => sizeOf cur
decreasing_by
  apply sizeOf_getD_lt_some_inner

/-- `ArtTree::insert(key, val)`: make a leaf and insert it at the root slot.
The C++ returns `bool` (always `true`); the model returns the new root. -/
def insert (root : Option Node) (key val : List Nat) : Option Node :=
  recursiveInsert root key (Node.leaf key val) 0

/-- A tree built from the empty tree (`root_ = nullptr`) by a sequence of
`insert` calls, first element first. -/
def build (ops : List (List Nat × List Nat)) : Option Node :=
  ops.foldl (fun acc kv => insert acc kv.1 kv.2) none

/-- State-passing translation of `ArtTree::search`: the C++ method runs
against the tree object, so its explicit-state form takes the tree and
returns it next to the result.  Each iteration re-assembles the tree it
traversed: no statement of the loop writes to any node field or to `root_`,
so the slot written back is exactly the slot that was read.  This is the
definition the frame theorem is stated about. -/
def searchSt : Option Node → List Nat → Nat → Option (List Nat) × Option Node
  | none, _, _ => (none, none)
  | some n, key, depth =>
      match n with
      | Node.leaf k v => (if k = key then some v else none, some (Node.leaf k v))
      | Node.inner ty pfx plen keys bits children =>
          match searchStep (Node.inner ty pfx plen keys bits children)
              key depth with
          | none => (none, some (Node.inner ty pfx plen keys bits children))
          | some (idx, d2) =>
              let r := searchSt (children.getD idx none) key d2
              (r.1, some (Node.inner ty pfx plen keys bits
                (children.set idx r.2)))
termination_by cur _ _ => sizeOf cur
decreasing_by
  apply sizeOf_getD_lt_some_inner

/-- The `assert(depth <= key.size())` at `src/art.hpp:673`, checked along the
search descent: `false` iff some iteration of the loop reaches the assertion
with `depth > key.size()` after advancing `depth` by `prefix_len`.  The check
sits exactly where the assertion does: after the full-prefix match, before
the edge byte is computed. -/
def searchAssertOk : Option Node → List Nat → Nat → Bool
  | none, _, _ => true
  | some n, key, depth =>
      match n with
      | Node.leaf _ _ => true
      | Node.inner ty pfx plen keys bits children =>
          let p := checkPfx pfx plen key depth
          if p ≠ plen then true
          else
            if key.length < depth + plen then false
            else
              match searchStep (Node.inner ty pfx plen keys bits children)
                  key depth with
              | none => true
              | some (idx, d2) => searchAssertOk (children.getD idx none) key d2
termination_by cur _ _ => sizeOf cur
decreasing_by
  apply sizeOf_getD_lt_some_inner

mutual

/-- Height of a node: leaves have height 0, an inner node is one more than
its tallest child.  This is the 'finite depth' measure of the termination
claim. -/
def height : Node → Nat
  | Node.leaf _ _ => 0
  | Node.inner _ _ _ _ _ children => 1 + heightList children

/-- Height contribution of a child-slot list. -/
def heightList : List (Option Node) → Nat
  | [] => 0
  | none :: rest => heightList rest
  | some c :: rest => max (1 + height c) (heightList rest)

end

/-- Height of an optional node: a null pointer has height 0, otherwise one
more than the tallest descent below the node would be counted by `height`
itself; `heightO (some n) = 1 + height n` so that moving from an envelope to
a child (even a null slot) strictly decreases the measure. -/
def heightO : Option Node → Nat
  | none => 0
  | some n => 1 + height n

mutual

/-- All keys stored in leaves of a subtree, in slot order. -/
def leafKeys : Node → List (List Nat)
  | Node.leaf k _ => [k]
  | Node.inner _ _ _ _ _ children => leafKeysList children

/-- Leaf keys below a child-slot list. -/
def leafKeysList : List (Option Node) → List (List Nat)
  | [] => []
  | none :: rest => leafKeysList rest
  | some c :: rest => leafKeys c ++ leafKeysList rest

end

/-- Leaf keys of an optional subtree. -/
def leafKeysO : Option Node → List (List Nat)
  | none => []
  | some n => leafKeys n

/-- Longest common prefix length of two byte sequences — the `LCP` of the
specification, defined independently of the code (used to state what
`check_prefix` is claimed to compute). -/
def lcpLen : List Nat → List Nat → Nat
  | a :: as, b :: bs => if a = b then 1 + lcpLen as bs else 0
  | _, _ => 0

/-- The value the specification claims for `check_prefix(probe, depth)`: the
longest common prefix length between the stored prefix bytes
`prefix[0..prefix_len]` and the probe suffix `probe[depth..]`, bounded above
by `prefix_len`. -/
def specCheckPfx (pfx : List Nat) (plen : Nat) (key : List Nat) (depth : Nat) :
    Nat :=
  min (lcpLen ((List.range plen).map (fun j => byteAt pfx j)) (key.drop depth))
    plen

/-- Observation helper: the tag of the root envelope (`none` for an empty
tree or a leaf root). -/
def rootInnerKind : Option Node → Option NT
  | some (Node.inner ty _ _ _ _ _) => some ty
  | _ => none

/-- Observation helper: the key held by an optional node if it is a leaf. -/
def leafKeyOf : Option Node → Option (List Nat)
  | some (Node.leaf k _) => some k
  | _ => none

/-- Observation helper: the value held by an optional node if it is a leaf. -/
def leafValOf : Option Node → Option (List Nat)
  | some (Node.leaf _ v) => some v
  | _ => none

/-- Observation helper: look up the child of a node for byte `ch` via
`find_child` and read the matched slot, as `search`'s `cur = *next` does. -/
def childFor (n : Node) (ch : Nat) (isLeaf : Bool) : Option Node :=
  match n.findChild ch isLeaf with
  | none => none
  | some idx => n.childAt idx

/-- `childFor` lifted over an optional root. -/
def childForO (root : Option Node) (ch : Nat) (isLeaf : Bool) : Option Node :=
  match root with
  | none => none
  | some n => childFor n ch isLeaf

/-! Helper lemmas about list slots, leaf keys and heights. -/

/-- Writing back the value just read from a slot changes nothing. -/
theorem set_getD_self {α : Type} (l : List α) (i : Nat) (d : α) :
    l.set i (l.getD i d) = l := by
  induction l generalizing i with
  | nil => simp
  | cons a t ih =>
      cases i with
      | zero => simp [List.getD]
      | succ j => simp [List.getD] at ih ⊢; exact ih j

/-- Keys below any slot of a child list are keys below the list. -/
theorem leafKeysO_getD_sub {x : List Nat} (l : List (Option Node)) (i : Nat)
    (h : x ∈ leafKeysO (l.getD i none)) : x ∈ leafKeysList l := by
  induction l generalizing i with
  | nil => simp [List.getD, leafKeysO] at h
  | cons a t ih =>
      cases i with
      | zero =>
          cases a with
          | none => simp [List.getD, leafKeysO] at h
          | some c =>
              simp [List.getD, leafKeysO] at h
              simp [leafKeysList, h]
      | succ j =>
          have hx := ih j (by simpa [List.getD] using h)
          cases a with
          | none => simpa [leafKeysList] using hx
          | some c => simp [leafKeysList]; exact Or.inr hx

/-- Keys below a list with one slot overwritten come from the new slot value
or from the original list. -/
theorem leafKeysList_set_sub {x : List Nat} (l : List (Option Node)) (i : Nat)
    (r : Option Node) (h : x ∈ leafKeysList (l.set i r)) :
    x ∈ leafKeysO r ∨ x ∈ leafKeysList l := by
  induction l generalizing i with
  | nil => simp [leafKeysList] at h
  | cons a t ih =>
      cases i with
      | zero =>
          cases r with
          | none =>
              simp [leafKeysList] at h
              cases a with
              | none => right; simpa [leafKeysList] using h
              | some c => right; simp [leafKeysList]; exact Or.inr h
          | some rc =>
              simp [leafKeysList] at h
              cases h with
              | inl h => left; simpa [leafKeysO] using h
              | inr h =>
                  cases a with
                  | none => right; simpa [leafKeysList] using h
                  | some c => right; simp [leafKeysList]; exact Or.inr h
      | succ j =>
          cases a with
          | none =>
              have := ih j (by simpa [leafKeysList] using h)
              cases this with
              | inl h2 => exact Or.inl h2
              | inr h2 => right; simpa [leafKeysList] using h2
          | some c =>
              simp [leafKeysList] at h
              cases h with
              | inl h => right; simp [leafKeysList]; exact Or.inl h
              | inr h =>
                  cases ih j h with
                  | inl h2 => exact Or.inl h2
                  | inr h2 => right; simp [leafKeysList]; exact Or.inr h2

/-- The height of any slot is below the list height bound. -/
theorem heightO_getD_le (l : List (Option Node)) (i : Nat) :
    heightO (l.getD i none) ≤ heightList l := by
  induction l generalizing i with
  | nil => simp [List.getD, heightO, heightList]
  | cons a t ih =>
      cases i with
      | zero =>
          cases a with
          | none => simp [List.getD, heightO, heightList]
          | some c => simp [List.getD, heightO, heightList]
      | succ j =>
          have h := ih j
          cases a with
          | none => simpa [List.getD, heightList] using h
          | some c =>
              simp [List.getD, heightList]
              exact Or.inr (by simpa [List.getD] using h)

/-- The state-passing search returns exactly the plain search result together
with the untouched tree: the loop body contains no write, so re-assembling
the traversed slots restores the input tree. -/
theorem searchSt_spec (cur : Option Node) (key : List Nat) (depth : Nat) :
    searchSt cur key depth = (searchLoop cur key depth, cur) := by
  induction cur, key, depth using searchSt.induct with
  | case1 key depth => simp [searchSt, searchLoop]
  | case2 key depth k v => simp [searchSt, searchLoop]
  | case3 key depth ty pfx plen keys bits children hstep =>
      simp [searchSt, searchLoop, hstep]
  | case4 key depth ty pfx plen keys bits children idx d2 hstep ih =>
      simp only [searchSt, searchLoop, hstep]
      rw [ih, set_getD_self]

/-- A hit of the search loop can only report a key that some leaf of the
traversed subtree stores: `search` returns `true` only at
`cur->load_key() == key`. -/
theorem searchLoop_mem {v : List Nat} (cur : Option Node) (key : List Nat)
    (depth : Nat) (h : searchLoop cur key depth = some v) :
    key ∈ leafKeysO cur := by
  induction cur, key, depth using searchLoop.induct generalizing v with
  | case1 key depth => simp [searchLoop] at h
  | case2 depth k v2 => simp [leafKeysO, leafKeys]
  | case3 key depth k v2 hk => simp [searchLoop, hk] at h
  | case4 key depth ty pfx plen keys bits children hstep =>
      simp [searchLoop, hstep] at h
  | case5 key depth ty pfx plen keys bits children idx d2 hstep ih =>
      simp only [searchLoop, hstep] at h
      have hx := ih h
      simpa [leafKeysO, leafKeys] using leafKeysO_getD_sub children idx hx

/-- Every leaf key of the subtree installed by `recursive_insert` is either a
key of the leaf being inserted or a leaf key of the replaced subtree. -/
theorem leafKeys_recursiveInsert (ref : Option Node) (key : List Nat)
    (lf : Node) (depth : Nat) :
    ∀ x ∈ leafKeysO (recursiveInsert ref key lf depth),
      x ∈ leafKeys lf ∨ x ∈ leafKeysO ref := by
  induction ref, key, lf, depth using recursiveInsert.induct with
  | case1 key lf depth =>
      intro x hx
      left; simpa [recursiveInsert, leafKeysO] using hx
  | case2 lf depth k v =>
      intro x hx
      right; simpa [recursiveInsert, leafKeysO] using hx
  | case3 key lf depth k v hk =>
      intro x hx
      simp only [recursiveInsert, if_neg hk] at hx
      simp [leafKeysO, Node.addChild, firstNone, List.replicate_succ,
        leafKeys, leafKeysList] at hx
      rcases hx with hx | hx
      · left; exact hx
      · right; simp [leafKeysO, leafKeys, hx]
  | case4 key lf depth ty pfx plen keys bits children p hp =>
      intro x hx
      simp only [recursiveInsert] at hx
      rw [if_pos hp] at hx
      simp [leafKeysO, Node.addChild, firstNone, List.replicate_succ,
        leafKeys, leafKeysList] at hx
      simpa [leafKeysO, leafKeys] using hx
  | case5 key lf depth ty pfx plen keys bits children p hp d i hfind ih =>
      intro x hx
      simp only [recursiveInsert] at hx
      rw [if_neg hp] at hx
      rw [hfind] at hx
      simp only [leafKeysO, leafKeys] at hx
      rcases leafKeysList_set_sub children i _ hx with h2 | h2
      · rcases ih x h2 with h3 | h3
        · exact Or.inl h3
        · exact Or.inr (by
            simpa [leafKeysO, leafKeys] using leafKeysO_getD_sub children i h3)
      · exact Or.inr (by simpa [leafKeysO, leafKeys] using h2)
  | case6 key lf depth ty pfx plen keys bits children p hp d hfind =>
      intro x hx
      simp only [recursiveInsert] at hx
      rw [if_neg hp] at hx
      rw [hfind] at hx
      simp only [Node.isFull, if_neg (by simp : ¬(false = true))] at hx
      cases ty with
      | node4 =>
          simp only [Node.addChild] at hx
          cases hfn : firstNone children with
          | none =>
              rw [hfn] at hx
              exact Or.inr (by simpa [leafKeysO, leafKeys] using hx)
          | some i =>
              rw [hfn] at hx
              simp only [leafKeysO, leafKeys] at hx
              rcases leafKeysList_set_sub children i _ hx with h2 | h2
              · exact Or.inl (by simpa [leafKeysO, leafKeys] using h2)
              · exact Or.inr (by simpa [leafKeysO, leafKeys] using h2)
      | node16 =>
          simp only [Node.addChild] at hx
          cases hfn : firstNone children with
          | none =>
              rw [hfn] at hx
              exact Or.inr (by simpa [leafKeysO, leafKeys] using hx)
          | some i =>
              rw [hfn] at hx
              simp only [leafKeysO, leafKeys] at hx
              rcases leafKeysList_set_sub children i _ hx with h2 | h2
              · exact Or.inl (by simpa [leafKeysO, leafKeys] using h2)
              · exact Or.inr (by simpa [leafKeysO, leafKeys] using h2)
      | node48 =>
          simp only [Node.addChild] at hx
          cases hfn : firstNone children with
          | none =>
              rw [hfn] at hx
              exact Or.inr (by simpa [leafKeysO, leafKeys] using hx)
          | some i =>
              rw [hfn] at hx
              simp only [leafKeysO, leafKeys] at hx
              rcases leafKeysList_set_sub children i _ hx with h2 | h2
              · exact Or.inl (by simpa [leafKeysO, leafKeys] using h2)
              · exact Or.inr (by simpa [leafKeysO, leafKeys] using h2)
      | node256 =>
          simp only [Node.addChild] at hx
          by_cases hno : (children.getD (byteAt key d % 256) none).isNone = true
          · rw [if_pos hno] at hx
            simp only [leafKeysO, leafKeys] at hx
            rcases leafKeysList_set_sub children (byteAt key d % 256) _ hx with
              h2 | h2
            · exact Or.inl (by simpa [leafKeysO, leafKeys] using h2)
            · exact Or.inr (by simpa [leafKeysO, leafKeys] using h2)
          · rw [if_neg hno] at hx
            exact Or.inr (by simpa [leafKeysO, leafKeys] using hx)

/-- Leaf keys of a tree folded from `acc` by inserts come from the inserted
keys or from `acc`. -/
theorem leafKeys_build_sub (ops : List (List Nat × List Nat))
    (acc : Option Node) (x : List Nat)
    (h : x ∈ leafKeysO (ops.foldl (fun a kv => insert a kv.1 kv.2) acc)) :
    x ∈ ops.map Prod.fst ∨ x ∈ leafKeysO acc := by
  induction ops generalizing acc with
  | nil => exact Or.inr (by simpa using h)
  | cons kv rest ih =>
      simp only [List.foldl_cons] at h
      rcases ih (insert acc kv.1 kv.2) h with h2 | h2
      · exact Or.inl (by simp [h2])
      · rcases leafKeys_recursiveInsert acc kv.1 (Node.leaf kv.1 kv.2) 0 x h2
          with h3 | h3
        · exact Or.inl (by simp [leafKeys] at h3; simp [h3])
        · exact Or.inr h3

/-- Characterisation of the `check_prefix` loop: starting at `i` with enough
fuel, it stops after exactly the common run of `key` and the stored prefix
compared at the same absolute positions — the LCP of `(key.take plen).drop i`
against the prefix array contents `(range plen).map (byteAt pfx)` dropped at
`i`. -/
theorem checkPfxFrom_spec (pfx : List Nat) (plen : Nat) (key : List Nat) :
    ∀ (fuel i : Nat), plen ≤ i + fuel →
      checkPfxFrom pfx plen key fuel i =
        i + lcpLen ((key.take plen).drop i)
          (((List.range plen).map (fun j => byteAt pfx j)).drop i) := by
  intro fuel
  induction fuel with
  | zero =>
      intro i hle
      have h1 : (key.take plen).length ≤ i := by
        simp [List.length_take]; omega
      have h2 : ((List.range plen).map (fun j => byteAt pfx j)).length ≤ i := by
        simp; omega
      rw [List.drop_eq_nil_of_le h1, List.drop_eq_nil_of_le h2]
      simp [checkPfxFrom, lcpLen]
  | succ fuel ih =>
      intro i hle
      by_cases hc : i < plen ∧ i < key.length ∧ byteAt key i = byteAt pfx i
      · rw [checkPfxFrom, if_pos hc]
        rw [ih (i + 1) (by omega)]
        have hA : i < (key.take plen).length := by
          simp [List.length_take]; omega
        have hB : i < ((List.range plen).map (fun j => byteAt pfx j)).length := by
          simp; omega
        rw [List.drop_eq_getElem_cons hA, List.drop_eq_getElem_cons hB]
        have hkey : (key.take plen)[i] = byteAt key i := by
          rw [List.getElem_take]
          exact (List.getD_eq_getElem key 0 (by omega)).symm
        have hpfx : ((List.range plen).map (fun j => byteAt pfx j))[i] =
            byteAt pfx i := by
          rw [List.getElem_map, List.getElem_range]
        rw [hkey, hpfx, hc.2.2]
        simp [lcpLen]
        omega
      · rw [checkPfxFrom, if_neg hc]
        rcases Nat.lt_or_ge i plen with hip | hip
        · rcases Nat.lt_or_ge i key.length with hik | hik
          · -- bytes differ
            have hne : byteAt key i ≠ byteAt pfx i := by tauto
            have hA : i < (key.take plen).length := by
              simp [List.length_take]; omega
            have hB : i < ((List.range plen).map (fun j => byteAt pfx j)).length := by
              simp; omega
            rw [List.drop_eq_getElem_cons hA, List.drop_eq_getElem_cons hB]
            have hkey : (key.take plen)[i] = byteAt key i := by
              rw [List.getElem_take]
              exact (List.getD_eq_getElem key 0 (by omega)).symm
            have hpfx : ((List.range plen).map (fun j => byteAt pfx j))[i] =
                byteAt pfx i := by
              rw [List.getElem_map, List.getElem_range]
            rw [hkey, hpfx]
            simp [lcpLen, hne]
          · -- key exhausted
            have h1 : (key.take plen).length ≤ i := by
              simp [List.length_take]; omega
            rw [List.drop_eq_nil_of_le h1]
            simp [lcpLen]
        · -- prefix budget exhausted
          have h2 : ((List.range plen).map (fun j => byteAt pfx j)).length ≤ i := by
            simp; omega
          rw [List.drop_eq_nil_of_le h2]
          cases hdrop : (key.take plen).drop i with
          | nil => simp [lcpLen]
          | cons a rest => simp [lcpLen]

/-! The claim theorems. -/

/-- C1: the claim states that after any insert sequence, `search(k)` returns
the value of the last `insert(k, v)`; in particular every member of a set of
pairwise-distinct inserted keys is retrievable.  The code violates this: on
the failing input `insert("ab","1"); insert("ac","2")` the split installs the
pre-existing leaf `"ab"` at edge byte `0` instead of `'b'`, so
`search("ab")` misses while `search("ac")` still hits.  This theorem
evaluates the embedded code at that input. -/
theorem claim1_distinct_keys_search_misses :
    search (build [([97, 98], [49]), ([97, 99], [50])]) [97, 98] = none ∧
    search (build [([97, 98], [49]), ([97, 99], [50])]) [97, 99] = some [50] := by
  constructor <;>
    simp [search, build, insert, searchLoop, recursiveInsert, searchStep,
      checkPfx, checkPfxFrom, lcpEnd, lcpFrom, byteAt, Node.findChild,
      Node.addChild, Node.childAt, Node.isFull, scanKeys, firstNone, zeros16,
      MAX_PREFIX_LEN, List.findIdx?]

/-- C2: the claim states that `insert(k, v1); insert(k, v2)` replaces the
stored value so `search(k)` yields `v2` (concretely
`insert("a","1"); insert("a","2"); search("a")` yields `"2"`).  The code
violates this: the equal-key branch of `recursive_insert` assigns the new
leaf to a local variable instead of `*node_ref` and deletes the old leaf, so
the tree still references the (freed) old leaf and the search yields the old
value `"1"`.  This theorem evaluates the embedded code at that input. -/
theorem claim2_reinsert_keeps_old_value :
    search (build [([97], [49]), ([97], [50])]) [97] = some [49] ∧
    search (build [([97], [49]), ([97], [50])]) [97] ≠ some [50] := by
  constructor <;>
    simp [search, build, insert, searchLoop, recursiveInsert, searchStep,
      checkPfx, checkPfxFrom, lcpEnd, lcpFrom, byteAt, Node.findChild,
      Node.addChild, Node.childAt, Node.isFull, scanKeys, firstNone, zeros16,
      MAX_PREFIX_LEN, List.findIdx?]

/-- C3: for every finite insert sequence and every key `u` never inserted by
it, `search(u)` reports absence.  Confirmed: the loop returns a value only at
a leaf whose stored key equals the probe byte-for-byte, and every leaf key of
a built tree is one of the inserted keys. -/
theorem claim3_unseen_key_misses (ops : List (List Nat × List Nat))
    (u : List Nat) (h : u ∉ ops.map Prod.fst) :
    search (build ops) u = none := by
  cases hs : search (build ops) u with
  | none => rfl
  | some v =>
      have hmem := searchLoop_mem (build ops) u 0 hs
      rcases leafKeys_build_sub ops none u hmem with h2 | h2
      · exact absurd h2 h
      · simp [leafKeysO] at h2

/-- Witness for C3 at a concrete input: `"zz"` was never inserted into the
tree built from `insert("ab","1")`, and searching it misses. -/
theorem claim3_unseen_key_misses_witness :
    [122, 122] ∉ ([([97, 98], [49])].map Prod.fst) ∧
    search (build [([97, 98], [49])]) [122, 122] = none :=
  ⟨by decide, claim3_unseen_key_misses [([97, 98], [49])] [122, 122] (by decide)⟩

/-- C4: the claim states that inserting the five single-byte keys
`a, b, c, d, e` makes the root an Inner-16 (grown once from Inner-4), with
`search("c")` returning its value.  The code violates the growth part:
`is_full()` returns `false` for every inner layout and the failing
`add_child` result is ignored, so the root stays an Inner-4, the fifth key
`"e"` is silently dropped, and (an effect of the same split bug as C1)
`search("a")` also misses; `search("c")` does return its value.  This
theorem evaluates the embedded code at that input. -/
theorem claim4_no_growth_root_stays_node4 :
    rootInnerKind (build [([97], [49]), ([98], [50]), ([99], [51]),
        ([100], [52]), ([101], [53])]) = some NT.node4 ∧
    search (build [([97], [49]), ([98], [50]), ([99], [51]), ([100], [52]),
        ([101], [53])]) [101] = none ∧
    search (build [([97], [49]), ([98], [50]), ([99], [51]), ([100], [52]),
        ([101], [53])]) [99] = some [51] := by
  refine ⟨?_, ?_, ?_⟩ <;>
    simp [search, build, insert, searchLoop, recursiveInsert, searchStep,
      checkPfx, checkPfxFrom, lcpEnd, lcpFrom, byteAt, Node.findChild,
      Node.addChild, Node.childAt, Node.isFull, scanKeys, firstNone, zeros16,
      MAX_PREFIX_LEN, List.findIdx?, rootInnerKind]

/-- C5: the claim states that `grow()` on an Inner-48 preserves the
byte-to-child mapping (every byte `b` with `index[b] != 0xFF` keeps its child
observable via `find_child(b)` after growth, and no new byte gains one).
The code violates this — the conversion loop (marked `TODO: fix bug` in the
source) installs slot `i`'s child at byte position `i` instead of consulting
the index table: growing an Inner-48 holding one child for byte `97` at slot
`0` yields an Inner-256 where byte `97` has no child and byte `0` has the
child.  This theorem evaluates `grow` at that node. -/
theorem claim5_grow48_breaks_mapping :
    leafKeyOf (childFor (Node.inner NT.node48 zeros16 0
        ((List.replicate 256 255).set 97 0) []
        ((List.replicate 48 none).set 0 (some (Node.leaf [97] [49])))) 97 false)
      = some [97] ∧
    rootInnerKind (some ((Node.inner NT.node48 zeros16 0
        ((List.replicate 256 255).set 97 0) []
        ((List.replicate 48 none).set 0 (some (Node.leaf [97] [49])))).grow))
      = some NT.node256 ∧
    (childFor ((Node.inner NT.node48 zeros16 0
        ((List.replicate 256 255).set 97 0) []
        ((List.replicate 48 none).set 0 (some (Node.leaf [97] [49])))).grow)
        97 false).isNone = true ∧
    leafKeyOf (childFor ((Node.inner NT.node48 zeros16 0
        ((List.replicate 256 255).set 97 0) []
        ((List.replicate 48 none).set 0 (some (Node.leaf [97] [49])))).grow)
        0 false) = some [97] := by
  decide

/-- C6: the claim states that splitting on an existing leaf with a different
key installs the new leaf at edge `key[i]` (terminal when exhausted) and the
pre-existing leaf at edge `existing_key[i]` (terminal when exhausted).  The
code violates the second half: `recursive_insert` executes
`add_child(0, node, true)`, installing the pre-existing leaf at edge byte `0`
with the terminal flag even when `i < existing_key.len`.  On the failing
input `insert("ab","1"); insert("ac","2")` (split point `i = 1`,
`existing_key[1] = 'b' = 98`) the root has no child at edge `98`; the old
leaf sits at edge `0` and the new leaf at edge `99`.  This theorem evaluates
the embedded code at that input. -/
theorem claim6_split_installs_old_leaf_at_zero :
    (childForO (build [([97, 98], [49]), ([97, 99], [50])]) 98 false).isNone
      = true ∧
    leafKeyOf (childForO (build [([97, 98], [49]), ([97, 99], [50])]) 0 false)
      = some [97, 98] ∧
    leafKeyOf (childForO (build [([97, 98], [49]), ([97, 99], [50])]) 99 false)
      = some [97, 99] := by
  refine ⟨?_, ?_, ?_⟩ <;>
    simp [build, insert, recursiveInsert, searchStep, checkPfx, checkPfxFrom,
      lcpEnd, lcpFrom, byteAt, Node.findChild, Node.addChild, Node.childAt,
      Node.isFull, scanKeys, firstNone, zeros16, MAX_PREFIX_LEN,
      List.findIdx?, childForO, childFor, leafKeyOf]

/-- C7 counterexample: the claim states that `check_prefix(probe, depth)`
returns the longest common prefix length of the stored prefix bytes
`prefix[0..prefix_len]` and the probe suffix `probe[depth..]`.  False at a
concrete input: for a node with prefix bytes `[97, 98]`, `prefix_len = 2`,
probe `[120, 97, 98]` and `depth = 1`, that LCP is `2` (`[97, 98]` against
`[97, 98]`), but the code compares `key[i]` with `prefix[i]` at the same
absolute index `i` and returns `0`. -/
theorem claim7_checkPfx_counterexample :
    checkPfx [97, 98] 2 [120, 97, 98] 1 = 0 ∧
    specCheckPfx [97, 98] 2 [120, 97, 98] 1 = 2 := by
  decide

/-- C7 amended: `check_prefix(probe, depth)` returns the length of the
longest common run of positions `i` starting at `i = depth` with
`i < prefix_len`, `i < probe.size` and `probe[i] == prefix[i]` — i.e. the LCP
of the probe and the stored prefix compared at the same absolute positions
(equivalently, of `(probe.take prefix_len).drop depth` against the prefix
array contents dropped at `depth`).  It is bounded by `prefix_len − depth`,
and coincides with the claimed quantity exactly when `depth = 0`. -/
theorem claim7_checkPfx_absolute_lcp (pfx : List Nat) (plen : Nat)
    (key : List Nat) (depth : Nat) :
    checkPfx pfx plen key depth =
      lcpLen ((key.take plen).drop depth)
        (((List.range plen).map (fun j => byteAt pfx j)).drop depth) := by
  unfold checkPfx
  rw [checkPfxFrom_spec pfx plen key plen depth (by omega)]
  omega

/-- C8: search terminates — each continuing iteration of the search loop
advances `depth` by at least 1 (`prefix_len + 1`) and moves to a strictly
lower node (the child slot it dereferences), so a descent from any node
visits at most `height` further nodes. -/
theorem claim8_search_step_terminates (n : Node) (key : List Nat)
    (depth idx d2 : Nat) (h : searchStep n key depth = some (idx, d2)) :
    depth + 1 ≤ d2 ∧ heightO (n.childAt idx) < height n := by
  refine ⟨searchStep_depth h, ?_⟩
  cases n with
  | leaf k v => simp [searchStep] at h
  | inner ty pfx plen keys bits children =>
      have hle := heightO_getD_le children idx
      simp only [Node.childAt, height]
      omega

/-- Witness for C8 at a concrete input: at the root built from
`insert("ab","1"); insert("ac","2")` the search step for probe `"ac"`
continues into slot 0 with depth advanced from 0 to 2. -/
theorem claim8_search_step_terminates_witness :
    (0 : Nat) + 1 ≤ 2 ∧
    heightO ((Node.inner NT.node4
        ([97] ++ List.replicate 15 0) 1 [99, 0, 0, 0]
        [true, true, false, false]
        [some (Node.leaf [97, 99] [50]), some (Node.leaf [97, 98] [49]),
          none, none]).childAt 0) <
      height (Node.inner NT.node4
        ([97] ++ List.replicate 15 0) 1 [99, 0, 0, 0]
        [true, true, false, false]
        [some (Node.leaf [97, 99] [50]), some (Node.leaf [97, 98] [49]),
          none, none]) :=
  claim8_search_step_terminates
    (Node.inner NT.node4 ([97] ++ List.replicate 15 0) 1 [99, 0, 0, 0]
      [true, true, false, false]
      [some (Node.leaf [97, 99] [50]), some (Node.leaf [97, 98] [49]),
        none, none])
    [97, 99] 0 0 2 (by decide)

/-- C9: search never modifies the tree.  In the explicit-state translation of
`ArtTree::search` the tree coming out of a search is the tree that went in,
and searching `k2` after searching `k1` returns exactly what searching `k2`
alone returns; the result also agrees with the plain functional `search`. -/
theorem claim9_search_pure (t : Option Node) (k1 k2 : List Nat) :
    (searchSt t k1 0).2 = t ∧
    (searchSt (searchSt t k1 0).2 k2 0).1 = (searchSt t k2 0).1 ∧
    (searchSt t k1 0).1 = search t k1 := by
  simp [searchSt_spec, search]

/-- C10: the claim states that on trees built by inserts, whenever search
fully matches an inner node's prefix the advanced depth satisfies
`depth + prefix_len <= key.size()`, so the assertion at `src/art.hpp:673`
never fails.  The code violates this: after
`insert("ab","1"); insert("ac","2"); insert("a\x00q","3")` the root keeps a
stale terminal bitmap bit on the slot whose leaf was split into an inner
node, so `search("a")` follows the terminal edge into that inner node and
reaches the assertion with `depth = 2 > 1 = key.size()`.  This theorem
evaluates the assertion-checking search at that input. -/
theorem claim10_search_assert_fails :
    searchAssertOk (build [([97, 98], [49]), ([97, 99], [50]),
      ([97, 0, 113], [51])]) [97] 0 = false := by
  simp [searchAssertOk, build, insert, recursiveInsert, searchStep, checkPfx,
    checkPfxFrom, lcpEnd, lcpFrom, byteAt, Node.findChild, Node.addChild,
    Node.childAt, Node.isFull, scanKeys, firstNone, zeros16, MAX_PREFIX_LEN,
    List.findIdx?]

end ArtModel
